import Mathlib

set_option maxRecDepth 100000

/-!
# Verification of the execution-context core (`src/vm/contexts.rs`)

A shallow embedding of the transactional execution-context core of the
smart-contract VM: `AssetMap`, `CallStack`, `LocalContext`,
`ContractContext`, `GlobalContext`, `OwnedEnvironment` and the
environment-level helper `eval_read_only`.

Modelling conventions:
* Rust `HashMap` / `HashSet` are embedded as association lists / lists with
  set-discipline operations (insert replaces / deduplicates, iteration is the
  list order — one admissible iteration order of the hash containers).
* `i128` is embedded as `Int` together with an explicit range check in
  `checked_add`; stored amounts of well-formed maps lie in the `i128` range.
* Fallible Rust functions returning `Result` are embedded with `Except`;
  functions that mutate `&mut self` and may early-return with `?` are
  embedded in state-passing style so that the state at the moment of the
  early return is visible in the result.
* External collaborators that are not part of this source file (the parser,
  the evaluator, the database save points, `Value`, `Contract`) are modelled
  from the spec, marked `Modelled from the spec:` below.
-/

/-- Error taxonomy, runtime errors (`vm::errors::RuntimeErrorType`). -/
inductive RuntimeErrorType where
  | ArithmeticOverflow
  | ParseError (msg : String)
  | MaxContextDepthReached
deriving DecidableEq, Repr

/-- Error taxonomy, unchecked (user-facing) errors (`vm::errors::UncheckedError`). -/
inductive UncheckedError where
  | UndefinedFunction (name : String)
  | NonPublicFunction (name : String)
  | ContractMustReturnBoolean
deriving DecidableEq, Repr

/-- Error taxonomy, internal interpreter errors (`vm::errors::InterpreterError`). -/
inductive InterpreterError where
  | InterpreterError (msg : String)
  | FailedToConstructAssetTable
deriving DecidableEq, Repr

/-- The error side of `vm::errors::InterpreterResult`, combining the three kinds
(the Rust `.into()` conversions choose the corresponding injection). -/
inductive VmError where
  | Runtime (e : RuntimeErrorType)
  | Unchecked (e : UncheckedError)
  | Interpreter (e : InterpreterError)
deriving DecidableEq, Repr

/-- Decidable equality for `Except`, used to evaluate the embedding on
concrete inputs. -/
instance {ε α : Type} [DecidableEq ε] [DecidableEq α] : DecidableEq (Except ε α) :=
  fun x y =>
  match x, y with
  | .ok a, .ok b =>
    if h : a = b then .isTrue (by rw [h]) else .isFalse (by intro hc; cases hc; exact h rfl)
  | .error a, .error b =>
    if h : a = b then .isTrue (by rw [h]) else .isFalse (by intro hc; cases hc; exact h rfl)
  | .ok _, .error _ => .isFalse (by intro hc; cases hc)
  | .error _, .ok _ => .isFalse (by intro hc; cases hc)

/-- Lower bound of `i128`. -/
def I128_MIN : Int := -(2 ^ 127)

/-- Upper bound of `i128`. -/
def I128_MAX : Int := 2 ^ 127 - 1

/-- `i128::checked_add`: the exact sum when it fits in the `i128` range,
`none` on overflow. -/
def checked_add (a b : Int) : Option Int :=
  if I128_MIN ≤ a + b ∧ a + b ≤ I128_MAX then some (a + b) else none

/-- `HashMap::get` on an association list: first entry with the given key. -/
def assocGet {κ β : Type} [DecidableEq κ] (k : κ) : List (κ × β) → Option β
  | [] => none
  | (k', v) :: rest => if k' = k then some v else assocGet k rest

/-- `HashMap::insert` on an association list: replace the first entry with the
given key, or append a new entry. -/
def assocInsert {κ β : Type} [DecidableEq κ] (k : κ) (v : β) : List (κ × β) → List (κ × β)
  | [] => [(k, v)]
  | (k', v') :: rest => if k' = k then (k, v) :: rest else (k', v') :: assocInsert k v rest

/-- `HashMap::contains_key` on an association list. -/
def assocContains {κ β : Type} [DecidableEq κ] (k : κ) (l : List (κ × β)) : Bool :=
  (assocGet k l).isSome

/-- `vm::types::PrincipalData` — opaque hashable identity; embedded as `String`. -/
abbrev PrincipalData := String

/-- `vm::types::AssetIdentifier`: the pair `(contract_name, asset_name)`. -/
structure AssetIdentifier where
  contract_name : String
  asset_name : String
deriving DecidableEq, Repr

/-- `AssetMap` (`contexts.rs` line 39): tracks which assets have been
transferred from whom during a transaction.  The nested `HashMap` is embedded
as a nested association list. -/
structure AssetMap where
  map : List (PrincipalData × List (AssetIdentifier × Int))
deriving DecidableEq, Repr

/-- `AssetMap::new`. -/
def AssetMap.new : AssetMap := ⟨[]⟩

/-- `AssetMap::get_next_amount`: current amount for `(principal, asset)`
(default 0), checked-added to `amount`; `ArithmeticOverflow` on `i128`
overflow. -/
def AssetMap.get_next_amount (m : AssetMap) (principal : PrincipalData)
    (asset : AssetIdentifier) (amount : Int) : Except VmError Int :=
  let current_amount :=
    match assocGet principal m.map with
    | some principal_map => (assocGet asset principal_map).getD 0
    | none => 0
  match checked_add current_amount amount with
  | some v => .ok v
  | none => .error (.Runtime .ArithmeticOverflow)

/-- The insert sequence shared by `add_transfer` (lines 102–109) and the
second loop of `commit_other` (lines 126–132): ensure a principal map exists,
then overwrite the `(asset ↦ amount)` entry in it. -/
def AssetMap.insertAmount (m : AssetMap) (principal : PrincipalData)
    (asset : AssetIdentifier) (amount : Int) : AssetMap :=
  let map1 := if assocContains principal m.map then m.map else assocInsert principal [] m.map
  let principal_map := (assocGet principal map1).getD []
  ⟨assocInsert principal (assocInsert asset amount principal_map) map1⟩

/-- `AssetMap::add_transfer`. -/
def AssetMap.add_transfer (m : AssetMap) (principal : PrincipalData)
    (asset : AssetIdentifier) (amount : Int) : Except VmError AssetMap :=
  match m.get_next_amount principal asset amount with
  | .error e => .error e
  | .ok next_amount => .ok (m.insertAmount principal asset next_amount)

/-- Inner loop of the first phase of `commit_other` (lines 119–122): for each
`(asset, amount)` of one principal's map, compute the next amount against the
unmodified `self` and push it onto `to_add`.  The `AssetMap` component of the
result is the state of `self` at the moment the loop returns (the loop body
never writes `self`, so an `?`-early-return carries the current, threaded
state). -/
def AssetMap.commitEntries (self : AssetMap) (principal : PrincipalData) :
    List (AssetIdentifier × Int) →
    Except VmError (List (PrincipalData × AssetIdentifier × Int)) × AssetMap
  | [] => (.ok [], self)
  | (asset, amount) :: rest =>
    match self.get_next_amount principal asset amount with
    | .error e => (.error e, self)
    | .ok next_amount =>
      match AssetMap.commitEntries self principal rest with
      | (.error e, self') => (.error e, self')
      | (.ok adds, self') => (.ok ((principal, asset, next_amount) :: adds), self')

/-- Outer loop of the first phase of `commit_other` (lines 118–123): drain the
child map and accumulate `to_add`. -/
def AssetMap.commitToAdd (self : AssetMap) :
    List (PrincipalData × List (AssetIdentifier × Int)) →
    Except VmError (List (PrincipalData × AssetIdentifier × Int)) × AssetMap
  | [] => (.ok [], self)
  | (principal, principal_map) :: rest =>
    match self.commitEntries principal principal_map with
    | (.error e, self') => (.error e, self')
    | (.ok adds, self') =>
      match AssetMap.commitToAdd self' rest with
      | (.error e, self'') => (.error e, self'')
      | (.ok adds', self'') => (.ok (adds ++ adds'), self'')

/-- Second phase of `commit_other` (lines 125–133): drain `to_add` into
`self` with the shared insert sequence. -/
def AssetMap.applyAdds : AssetMap → List (PrincipalData × AssetIdentifier × Int) → AssetMap
  | m, [] => m
  | m, (principal, asset, amount) :: rest =>
    AssetMap.applyAdds (m.insertAmount principal asset amount) rest

/-- `AssetMap::commit_other` (state-passing; the returned `AssetMap` is the
state of `self` after the call, whether it failed or succeeded). -/
def AssetMap.commit_other (self other : AssetMap) : Except VmError Unit × AssetMap :=
  match self.commitToAdd other.map with
  | (.error e, self') => (.error e, self')
  | (.ok to_add, self') => (.ok (), self'.applyAdds to_add)

/-- `AssetMap::to_table`. -/
def AssetMap.to_table (m : AssetMap) : List (PrincipalData × List (AssetIdentifier × Int)) :=
  m.map

/-- The observable amount entry of an `AssetMap` at `(principal, asset)`:
`some v` when an entry is present, `none` otherwise. -/
def AssetMap.amount (m : AssetMap) (principal : PrincipalData)
    (asset : AssetIdentifier) : Option Int :=
  (assocGet principal m.map).bind (fun principal_map => assocGet asset principal_map)

/-- Well-formedness inherited from the Rust types: every stored amount is a
representable `i128`. -/
def AssetMap.WF (m : AssetMap) : Prop :=
  ∀ e ∈ m.map, ∀ x ∈ e.2, I128_MIN ≤ x.2 ∧ x.2 ≤ I128_MAX

instance (m : AssetMap) : Decidable m.WF := by
  unfold AssetMap.WF; infer_instance

/-- Applying a sequence of `add_transfer` calls in order, stopping at the
first overflow. -/
def applyTransfers (m : AssetMap) :
    List (PrincipalData × AssetIdentifier × Int) → Except VmError AssetMap
  | [] => .ok m
  | (principal, asset, amount) :: rest =>
    match m.add_transfer principal asset amount with
    | .error e => .error e
    | .ok m' => applyTransfers m' rest

/-- Modelled from the spec: `vm::types::Value` is an opaque tagged union of
which only the `Principal` and `Response{committed, data}` variants are
relevant here; `IntVal`/`BoolVal` stand for the remaining (non-`Response`)
variants. -/
inductive Value where
  | Principal (p : PrincipalData)
  | Response (committed : Bool) (data : Value)
  | IntVal (i : Int)
  | BoolVal (b : Bool)
deriving DecidableEq, Repr

/-- Modelled from the spec: `vm::callables::FunctionIdentifier` is an opaque
hashable, equality-comparable identifier; embedded as `String`. -/
abbrev FunctionIdentifier := String

/-- Modelled from the spec: `vm::callables::DefinedFunction` exposes
`is_public` and `is_read_only`; its execution behaviour is external. -/
structure DefinedFunction where
  is_public : Bool
  is_read_only : Bool
deriving DecidableEq, Repr

/-- `ContractContext` (line 62). -/
structure ContractContext where
  name : String
  -- source field name `variables` (a Lean keyword)
  vars : List (String × Value)
  functions : List (String × DefinedFunction)
deriving DecidableEq, Repr

/-- `ContractContext::new`. -/
def ContractContext.new (name : String) : ContractContext :=
  ⟨name, [], []⟩

/-- Modelled from the spec: `vm::contracts::Contract` holds a
`ContractContext`. -/
structure Contract where
  contract_context : ContractContext
deriving DecidableEq, Repr

/-- Modelled from the spec: `vm::SymbolicExpression` is an opaque expression
produced by the parser collaborator. -/
structure SymbolicExpression where
  idx : Nat
deriving DecidableEq, Repr

/-- `CallStack` (line 74): ordered stack (head = top, mirroring `Vec` push/pop
at the end) plus the tracked set (a duplicate-free list embedding
`HashSet`). -/
structure CallStack where
  stack : List FunctionIdentifier
  set : List FunctionIdentifier
deriving DecidableEq, Repr

/-- `CallStack::new`. -/
def CallStack.new : CallStack := ⟨[], []⟩

/-- `CallStack::depth`. -/
def CallStack.depth (cs : CallStack) : Nat := cs.stack.length

/-- `CallStack::contains`: membership in the tracked set, not the stack. -/
def CallStack.contains (cs : CallStack) (function : FunctionIdentifier) : Bool :=
  cs.set.contains function

/-- `CallStack::insert`: push onto the stack; if `track`, add to the set
(`HashSet::insert` is a no-op on a present element). -/
def CallStack.insert (cs : CallStack) (function : FunctionIdentifier) (track : Bool) : CallStack :=
  { stack := function :: cs.stack,
    set := if track then (if cs.set.contains function then cs.set else function :: cs.set)
           else cs.set }

/-- Outcome of `CallStack::remove`: `ok`/`err` carry the `CallStack` state
after the call (the pop performed before the identifier check persists);
`panicked` is the process-fatal `panic!`. -/
inductive RemoveOutcome where
  | ok (cs : CallStack)
  | err (e : VmError) (cs : CallStack)
  | panicked
deriving DecidableEq, Repr

/-- `CallStack::remove` (lines 543–555).  Note that the identifier-mismatch
branch returns an `InterpreterError` whose message speaks of an *empty* call
stack although the stack was nonempty. -/
def CallStack.remove (cs : CallStack) (function : FunctionIdentifier)
    (tracked : Bool) : RemoveOutcome :=
  match cs.stack with
  | removed :: rest =>
    if removed ≠ function then
      .err (.Interpreter (.InterpreterError "Tried to remove item from empty call stack."))
        { cs with stack := rest }
    else if tracked ∧ ¬ (cs.set.contains function = true) then
      .panicked
    else
      .ok { stack := rest, set := if tracked then cs.set.erase function else cs.set }
  | [] =>
    .err (.Interpreter (.InterpreterError "Tried to remove item from empty call stack.")) cs

/-- The invariant of the spec's data model: every element of the tracked set
appears in the stack. -/
def SetSubStack (cs : CallStack) : Prop :=
  ∀ f ∈ cs.set, f ∈ cs.stack

instance (cs : CallStack) : Decidable (SetSubStack cs) := by
  unfold SetSubStack; infer_instance

/-- Call stacks reachable from `CallStack::new` by `insert` and successful
`remove` — the reachability relation of the claim, with no constraint
between the `track` flag used at insertion and the `tracked` flag used at
removal. -/
inductive CSReachable : CallStack → Prop where
  | base : CSReachable CallStack.new
  | step_insert {cs : CallStack} (f : FunctionIdentifier) (track : Bool) :
      CSReachable cs → CSReachable (cs.insert f track)
  | step_remove {cs cs' : CallStack} (f : FunctionIdentifier) (tracked : Bool) :
      CSReachable cs → cs.remove f tracked = .ok cs' → CSReachable cs'

/-- Call stacks reachable when, additionally, every removal either sets
`tracked` or pops an identifier that is not currently tracked (the amended
reachability relation). -/
inductive CSReachableOk : CallStack → Prop where
  | base : CSReachableOk CallStack.new
  | step_insert {cs : CallStack} (f : FunctionIdentifier) (track : Bool) :
      CSReachableOk cs → CSReachableOk (cs.insert f track)
  | step_remove {cs cs' : CallStack} (f : FunctionIdentifier) (tracked : Bool) :
      CSReachableOk cs → (tracked = true ∨ cs.contains f = false) →
      cs.remove f tracked = .ok cs' → CSReachableOk cs'

/-- `MAX_CONTEXT_DEPTH` (line 15). -/
def MAX_CONTEXT_DEPTH : Nat := 256

/-- `LocalContext` (line 68): lexical scope with an optional parent and an
explicit `depth` field, as in the source. -/
inductive LocalContext where
  | mk (parent : Option LocalContext) (vars : List (String × Value)) (depth : Nat)

/-- The `parent` field. -/
def LocalContext.parent : LocalContext → Option LocalContext
  | .mk p _ _ => p

/-- The `variables` field of the source. -/
def LocalContext.vars : LocalContext → List (String × Value)
  | .mk _ v _ => v

/-- The `depth` field. -/
def LocalContext.depth : LocalContext → Nat
  | .mk _ _ d => d

/-- `LocalContext::new`. -/
def LocalContext.new : LocalContext := .mk none [] 0

/-- `LocalContext::extend` (lines 495–505). -/
def LocalContext.extend (lc : LocalContext) : Except VmError LocalContext :=
  if MAX_CONTEXT_DEPTH ≤ lc.depth then
    .error (.Runtime .MaxContextDepthReached)
  else
    .ok (.mk (some lc) [] (lc.depth + 1))

/-- `n` successive `extend` calls. -/
def extendN (lc : LocalContext) : Nat → Except VmError LocalContext
  | 0 => .ok lc
  | n + 1 =>
    match lc.extend with
    | .error e => .error e
    | .ok lc' => extendN lc' n

/-- Modelled from the spec: a database save point
(`ContractDatabase::begin_save_point`).  `parentState` is the state the
enclosing scope sees if the save point is not committed; `currentState` is the
speculative state the scope works on. -/
structure SavePoint (σ : Type) where
  parentState : σ
  currentState : σ
deriving DecidableEq, Repr

/-- Modelled from the spec: `begin_save_point` opens a nested scope whose
speculative state starts as a copy of the current state. -/
def begin_save_point {σ : Type} (s : σ) : SavePoint σ :=
  ⟨s, s⟩

/-- The terminal fate of a save point.  Per the spec (§5, §7) a save point
that is dropped without `commit` — an error propagating through `?` — is
rolled back, so the embedding has only the two outcomes. -/
inductive SpOutcome where
  | committed
  | rolledBack
deriving DecidableEq, Repr

/-- `GlobalContext` (line 54).  The Rust `parent_map : Option<&mut AssetMap>`
borrow is embedded by value: the child carries the parent map's value, and
`commit` returns the updated value for the parent to adopt. -/
structure GlobalContext (σ : Type) where
  parent_map : Option AssetMap
  database : SavePoint σ
  read_only : Bool
  asset_map : AssetMap
deriving DecidableEq, Repr

/-- `GlobalContext::new`. -/
def GlobalContext.new {σ : Type} (database : SavePoint σ) : GlobalContext σ :=
  { parent_map := none, database := database, read_only := false, asset_map := AssetMap.new }

/-- `GlobalContext::begin_from`. -/
def GlobalContext.begin_from {σ : Type} (database : σ) : GlobalContext σ :=
  GlobalContext.new (begin_save_point database)

/-- `GlobalContext::nest` (lines 395–404). -/
def GlobalContext.nest {σ : Type} (g : GlobalContext σ) : GlobalContext σ :=
  { parent_map := some g.asset_map,
    database := begin_save_point g.database.currentState,
    read_only := g.read_only,
    asset_map := AssetMap.new }

/-- `GlobalContext::nest_read_only` (lines 406–415). -/
def GlobalContext.nest_read_only {σ : Type} (g : GlobalContext σ) : GlobalContext σ :=
  { parent_map := some g.asset_map,
    database := begin_save_point g.database.currentState,
    read_only := true,
    asset_map := AssetMap.new }

/-- `GlobalContext::is_read_only`. -/
def GlobalContext.is_read_only {σ : Type} (g : GlobalContext σ) : Bool :=
  g.read_only

/-- `GlobalContext::log_asset_transfer` (lines 364–368). -/
def GlobalContext.log_asset_transfer {σ : Type} (g : GlobalContext σ)
    (sender : PrincipalData) (contract_name asset_name : String) (transfered : Int) :
    Except VmError (GlobalContext σ) :=
  let asset_identifier : AssetIdentifier :=
    { contract_name := contract_name, asset_name := asset_name }
  match g.asset_map.add_transfer sender asset_identifier transfered with
  | .error e => .error e
  | .ok am' => .ok { g with asset_map := am' }

/-- `GlobalContext::commit` (lines 426–441), consuming the context.  The
result is the triple of the returned `Result<Option<AssetMap>>`, the value of
the borrowed parent asset map after the call (`none` when no parent is
bound), and the fate of the save point.  `database.commit()` runs only after
a successful merge; on a `commit_other` error the `?` drops the save point
uncommitted (rolled back, per the spec). -/
def GlobalContext.commit {σ : Type} (g : GlobalContext σ) :
    Except VmError (Option AssetMap) × Option AssetMap × SpOutcome :=
  match g.parent_map with
  | some parent_map =>
    match parent_map.commit_other g.asset_map with
    | (.error e, pm') => (.error e, some pm', .rolledBack)
    | (.ok _, pm') => (.ok none, some pm', .committed)
  | none => (.ok (some g.asset_map), none, .committed)

/-- `GlobalContext::handle_tx_result` (lines 443–459), consuming the context.
The result components are as in `GlobalContext.commit`.  The non-`Response`
branch and the `Err` branch return without committing; dropping the save
point is modelled as a roll-back per the spec (the `Err` branch also calls
`roll_back` explicitly). -/
def GlobalContext.handle_tx_result {σ : Type} (g : GlobalContext σ)
    (result : Except VmError Value) :
    Except VmError Value × Option AssetMap × SpOutcome :=
  match result with
  | .ok (.Response c d) =>
    if c then
      match g.commit with
      | (.ok _, pm', out) => (.ok (.Response c d), pm', out)
      | (.error e, pm', out) => (.error e, pm', out)
    else
      (.ok (.Response c d), g.parent_map, .rolledBack)
  | .ok _ => (.error (.Unchecked .ContractMustReturnBoolean), g.parent_map, .rolledBack)
  | .error e => (.error e, g.parent_map, .rolledBack)

/-- A lineage step below a `GlobalContext`: either `nest` or
`nest_read_only`. -/
inductive NestStep where
  | plain
  | readOnly
deriving DecidableEq, Repr

/-- Apply one lineage step. -/
def applyNest {σ : Type} (g : GlobalContext σ) : NestStep → GlobalContext σ
  | .plain => g.nest
  | .readOnly => g.nest_read_only

/-- Apply a sequence of lineage steps (descendants of `g`). -/
def applyNests {σ : Type} (g : GlobalContext σ) : List NestStep → GlobalContext σ
  | [] => g
  | s :: rest => applyNests (applyNest g s) rest

/-- `OwnedEnvironment` (line 28). -/
structure OwnedEnvironment (σ : Type) where
  context : GlobalContext σ
  default_contract : ContractContext
  call_stack : CallStack
deriving DecidableEq, Repr

/-- `OwnedEnvironment::new` (lines 166–172). -/
def OwnedEnvironment.new {σ : Type} (database : σ) : OwnedEnvironment σ :=
  { context := GlobalContext.begin_from database,
    default_contract := ContractContext.new ":transient:",
    call_stack := CallStack.new }

/-- `OwnedEnvironment::commit` (lines 200–203):
`self.context.commit()?.ok_or(FailedToConstructAssetTable)`. -/
def OwnedEnvironment.commit {σ : Type} (oe : OwnedEnvironment σ) : Except VmError AssetMap :=
  match oe.context.commit with
  | (.error e, _, _) => .error e
  | (.ok none, _, _) => .error (.Interpreter .FailedToConstructAssetTable)
  | (.ok (some am), _, _) => .ok am

/-- `Environment::eval_read_only` (lines 251–268), at the level of the data
the method touches: the caller's `GlobalContext`, the shared `CallStack`, and
the current sender/caller.  The collaborators are parameters: `parse` for
`parser::parse`, `get_contract` for `database.get_contract` (a read-only
query against the current state), and `eval1` for `eval` on the first parsed
expression, acting on the nested context (and the call stack, which is
threaded through, not rolled back).  After evaluation the nested save point
is rolled back unconditionally: the nested context is discarded and the
caller's context is returned unchanged, paired with the evaluation result. -/
def eval_read_only {σ : Type}
    (parse : String → Except VmError (List SymbolicExpression))
    (get_contract : σ → String → Except VmError Contract)
    (eval1 : SymbolicExpression → Contract → Option Value → Option Value →
      GlobalContext σ → CallStack → Except VmError Value × GlobalContext σ × CallStack)
    (g : GlobalContext σ) (cs : CallStack) (sender caller : Option Value)
    (contract_name program : String) :
    Except VmError Value × GlobalContext σ × CallStack :=
  match parse program with
  | .error e => (.error e, g, cs)
  | .ok [] =>
    (.error (.Runtime (.ParseError "Expected a program of at least length 1")), g, cs)
  | .ok (e0 :: _) =>
    match get_contract g.database.currentState contract_name with
    | .error e => (.error e, g, cs)
    | .ok contract =>
      let nested_context := g.nest
      match eval1 e0 contract sender caller nested_context cs with
      | (result, _nested', cs') => (result, g, cs')

/-- The merge of a child map into a parent map, observed pointwise: where the
child has an entry, the parent's current amount (default 0) plus the child's
final amount; elsewhere the parent's entry. -/
def mergeAmt (parent child : AssetMap) (principal : PrincipalData)
    (asset : AssetIdentifier) : Option Int :=
  match child.amount principal asset with
  | some v => some ((parent.amount principal asset).getD 0 + v)
  | none => parent.amount principal asset

/-- The child map flattened into the `(principal, asset, amount)` triples the
first phase of `commit_other` iterates over. -/
def entriesOf (m : AssetMap) : List (PrincipalData × AssetIdentifier × Int) :=
  m.map.flatMap (fun pr => pr.2.map (fun av => (pr.1, av.1, av.2)))

/-- The first phase of `commit_other` over an already-flattened list of
triples. -/
def nextList (self : AssetMap) :
    List (PrincipalData × AssetIdentifier × Int) →
    Except VmError (List (PrincipalData × AssetIdentifier × Int))
  | [] => .ok []
  | (p, a, v) :: rest =>
    match self.get_next_amount p a v with
    | .error e => .error e
    | .ok n =>
      match nextList self rest with
      | .error e => .error e
      | .ok ns => .ok ((p, a, n) :: ns)

/-- The triple a successful first phase produces from one child triple. -/
def nextOf (self : AssetMap) (t : PrincipalData × AssetIdentifier × Int) :
    PrincipalData × AssetIdentifier × Int :=
  (t.1, t.2.1, (self.amount t.1 t.2.1).getD 0 + t.2.2)

/-- First triple of the list matching `(principal, asset)`. -/
def findAmt : List (PrincipalData × AssetIdentifier × Int) →
    PrincipalData → AssetIdentifier → Option Int
  | [], _, _ => none
  | (p, a, n) :: rest, q, b =>
    if p = q ∧ a = b then some n else findAmt rest q b

/-- No two triples of the list share their `(principal, asset)` key. -/
def DistinctKeys (l : List (PrincipalData × AssetIdentifier × Int)) : Prop :=
  l.Pairwise (fun s t => ¬ (s.1 = t.1 ∧ s.2.1 = t.2.1))

/-- Key uniqueness of the association lists embedding the two `HashMap`
levels (every map reachable from the Rust code has it). -/
def AssetMap.KeysUnique (m : AssetMap) : Prop :=
  m.map.Pairwise (fun x y => x.1 ≠ y.1) ∧
  ∀ e ∈ m.map, e.2.Pairwise (fun x y => x.1 ≠ y.1)

/-- A concrete asset identifier for the concrete instances below. -/
def tokA : AssetIdentifier := ⟨"contract", "token"⟩

/-- Concrete parent map: principal `"p"` has already spent 5 of `tokA`. -/
def parentEx : AssetMap := ⟨[("p", [(tokA, 5)])]⟩

/-- Concrete transfer sequence touching two principals, one of them twice. -/
def tsEx : List (PrincipalData × AssetIdentifier × Int) :=
  [("p", tokA, 3), ("q", tokA, 2), ("p", tokA, 4)]

/-- The child map `tsEx` accumulates from a fresh map. -/
def childEx : AssetMap := ⟨[("p", [(tokA, 7)]), ("q", [(tokA, 2)])]⟩

/-- The map `tsEx` produces when applied directly to `parentEx`. -/
def directEx : AssetMap := ⟨[("p", [(tokA, 12)]), ("q", [(tokA, 2)])]⟩

/-- Concrete parent map holding `i128::MAX` for `("p", tokA)`. -/
def maxEx : AssetMap := ⟨[("p", [(tokA, I128_MAX)])]⟩

/-- Concrete child map holding 1 for `("p", tokA)`; merging it into `maxEx`
overflows. -/
def oneEx : AssetMap := ⟨[("p", [(tokA, 1)])]⟩

/-- Concrete nested `GlobalContext` (over `Nat` database states) whose parent
map merge overflows on commit. -/
def gOverflowEx : GlobalContext Nat :=
  { parent_map := some maxEx,
    database := ⟨0, 1⟩,
    read_only := false,
    asset_map := oneEx }

/-- Concrete root `GlobalContext` over `Nat` database states. -/
def gRootEx : GlobalContext Nat :=
  { parent_map := none,
    database := ⟨0, 1⟩,
    read_only := true,
    asset_map := oneEx }

/-- Concrete parser for the C5-style witness: always one expression. -/
def parseEx : String → Except VmError (List SymbolicExpression) :=
  fun _ => .ok [⟨0⟩]

/-- Concrete contract query for the witness. -/
def getContractEx : Nat → String → Except VmError Contract :=
  fun _ _ => .ok ⟨ContractContext.new "c"⟩

/-- Concrete evaluator for the witness: returns a value and writes the
nested save point's speculative state (which roll-back must discard). -/
def eval1Ex : SymbolicExpression → Contract → Option Value → Option Value →
    GlobalContext Nat → CallStack → Except VmError Value × GlobalContext Nat × CallStack :=
  fun _ _ _ _ gc cs =>
    (.ok (.BoolVal true), { gc with database := ⟨gc.database.parentState, 42⟩ }, cs)

theorem assocGet_insert_self {κ β : Type} [DecidableEq κ] (k : κ) (v : β) (l : List (κ × β)) :
    assocGet k (assocInsert k v l) = some v := by
  induction l with
  | nil => simp [assocGet, assocInsert]
  | cons hd t ih =>
    obtain ⟨k', v'⟩ := hd
    by_cases hk : k' = k
    · subst hk; simp [assocGet, assocInsert]
    · simp [assocGet, assocInsert, hk, ih]

theorem assocGet_insert_ne {κ β : Type} [DecidableEq κ] {q k : κ} (hne : q ≠ k) (v : β)
    (l : List (κ × β)) : assocGet q (assocInsert k v l) = assocGet q l := by
  induction l with
  | nil => simp [assocGet, assocInsert, Ne.symm hne]
  | cons hd t ih =>
    obtain ⟨k', v'⟩ := hd
    by_cases hk : k' = k
    · subst hk
      simp only [assocInsert, if_pos rfl, assocGet]
      rw [if_neg (Ne.symm hne), if_neg (Ne.symm hne)]
    · simp only [assocInsert, if_neg hk, assocGet]
      by_cases hq : k' = q
      · simp [hq]
      · simp [hq, ih]

theorem assocGet_mem {κ β : Type} [DecidableEq κ] {k : κ} {v : β} {l : List (κ × β)} :
    assocGet k l = some v → (k, v) ∈ l := by
  induction l with
  | nil => intro h; simp [assocGet] at h
  | cons hd t ih =>
    obtain ⟨k', v'⟩ := hd
    intro h
    simp only [assocGet] at h
    by_cases hk : k' = k
    · subst hk
      rw [if_pos rfl] at h
      cases h
      exact List.mem_cons_self _ _
    · rw [if_neg hk] at h
      exact List.mem_cons_of_mem _ (ih h)

theorem mem_assocInsert {κ β : Type} [DecidableEq κ] {k : κ} {v : β} {l : List (κ × β)}
    {e : κ × β} : e ∈ assocInsert k v l → e = (k, v) ∨ e ∈ l := by
  induction l with
  | nil => intro h; simpa [assocInsert] using h
  | cons hd t ih =>
    obtain ⟨k', v'⟩ := hd
    intro h
    by_cases hk : k' = k
    · subst hk
      simp only [assocInsert, if_pos, List.mem_cons] at h
      rcases h with h | h
      · exact Or.inl h
      · exact Or.inr (List.mem_cons_of_mem _ h)
    · simp only [assocInsert, if_neg hk, List.mem_cons] at h
      rcases h with h | h
      · exact Or.inr (by simp [h])
      · rcases ih h with h' | h'
        · exact Or.inl h'
        · exact Or.inr (List.mem_cons_of_mem _ h')

theorem pairwiseKeys_assocInsert {κ β : Type} [DecidableEq κ] {k : κ} {v : β}
    {l : List (κ × β)} (h : l.Pairwise (fun x y => x.1 ≠ y.1)) :
    (assocInsert k v l).Pairwise (fun x y => x.1 ≠ y.1) := by
  induction l with
  | nil => simp [assocInsert]
  | cons hd t ih =>
    obtain ⟨k', v'⟩ := hd
    rw [List.pairwise_cons] at h
    obtain ⟨hhd, ht⟩ := h
    by_cases hk : k' = k
    · subst hk
      simp only [assocInsert, if_pos rfl]
      exact List.pairwise_cons.mpr ⟨hhd, ht⟩
    · simp only [assocInsert, if_neg hk]
      refine List.pairwise_cons.mpr ⟨?_, ih ht⟩
      intro e he
      rcases mem_assocInsert he with h' | h'
      · subst h'; exact hk
      · exact hhd e h'

theorem currentAmount_eq (m : AssetMap) (p : PrincipalData) (a : AssetIdentifier) :
    (match assocGet p m.map with
     | some principal_map => (assocGet a principal_map).getD 0
     | none => 0) = (m.amount p a).getD 0 := by
  unfold AssetMap.amount
  cases assocGet p m.map with
  | none => rfl
  | some pm => rfl

theorem get_next_amount_ok (m : AssetMap) (p : PrincipalData) (a : AssetIdentifier)
    (v n : Int) :
    m.get_next_amount p a v = .ok n ↔
      n = (m.amount p a).getD 0 + v ∧ I128_MIN ≤ n ∧ n ≤ I128_MAX := by
  simp only [AssetMap.get_next_amount, checked_add, currentAmount_eq]
  by_cases h : I128_MIN ≤ (m.amount p a).getD 0 + v ∧ (m.amount p a).getD 0 + v ≤ I128_MAX
  · rw [if_pos h]
    constructor
    · intro he
      cases he
      exact ⟨rfl, h⟩
    · rintro ⟨rfl, _⟩
      rfl
  · rw [if_neg h]
    constructor
    · intro he
      cases he
    · rintro ⟨rfl, h1, h2⟩
      exact absurd ⟨h1, h2⟩ h

theorem insertAmount_outer_self (m : AssetMap) (p : PrincipalData) (a : AssetIdentifier)
    (n : Int) :
    assocGet p (m.insertAmount p a n).map =
      some (assocInsert a n ((assocGet p m.map).getD [])) := by
  unfold AssetMap.insertAmount
  by_cases hc : assocContains p m.map = true
  · obtain ⟨pm0, hpm0⟩ := Option.isSome_iff_exists.mp hc
    simp [hc, hpm0, assocGet_insert_self]
  · have hnone : assocGet p m.map = none := by
      unfold assocContains at hc
      cases hg : assocGet p m.map with
      | none => rfl
      | some pm0 => rw [hg] at hc; simp at hc
    simp [hc, hnone, assocGet_insert_self]

theorem insertAmount_outer_ne (m : AssetMap) (p : PrincipalData) (a : AssetIdentifier)
    (n : Int) {q : PrincipalData} (hq : q ≠ p) :
    assocGet q (m.insertAmount p a n).map = assocGet q m.map := by
  unfold AssetMap.insertAmount
  by_cases hc : assocContains p m.map = true
  · simp only [hc, if_true]
    rw [assocGet_insert_ne hq]
  · simp only [hc, if_false, Bool.false_eq_true]
    rw [assocGet_insert_ne hq, assocGet_insert_ne hq]

theorem assocGet_getD_bind {κ β : Type} [DecidableEq κ] (k : κ) (o : Option (List (κ × β))) :
    assocGet k (o.getD []) = o.bind (assocGet k) := by
  cases o with
  | none => rfl
  | some l => rfl

theorem amount_insertAmount (m : AssetMap) (p : PrincipalData) (a : AssetIdentifier)
    (n : Int) (q : PrincipalData) (b : AssetIdentifier) :
    (m.insertAmount p a n).amount q b =
      if q = p ∧ b = a then some n else m.amount q b := by
  unfold AssetMap.amount
  by_cases hq : q = p
  · subst hq
    rw [insertAmount_outer_self, Option.some_bind]
    by_cases hb : b = a
    · subst hb
      rw [if_pos ⟨rfl, rfl⟩, assocGet_insert_self]
    · rw [if_neg (fun hk : q = q ∧ b = a => hb hk.2), assocGet_insert_ne hb,
        assocGet_getD_bind]
  · rw [if_neg (fun hk : q = p ∧ b = a => hq hk.1), insertAmount_outer_ne m p a n hq]

theorem add_transfer_ok_elim (m : AssetMap) (p : PrincipalData) (a : AssetIdentifier)
    (v : Int) (m' : AssetMap) (h : m.add_transfer p a v = .ok m') :
    m' = m.insertAmount p a ((m.amount p a).getD 0 + v) ∧
      I128_MIN ≤ (m.amount p a).getD 0 + v ∧ (m.amount p a).getD 0 + v ≤ I128_MAX := by
  unfold AssetMap.add_transfer at h
  cases hg : m.get_next_amount p a v with
  | error e => rw [hg] at h; cases h
  | ok n =>
    rw [hg] at h
    cases h
    obtain ⟨hn, hr⟩ := (get_next_amount_ok m p a v n).mp hg
    subst hn
    exact ⟨rfl, hr⟩

theorem add_transfer_ok_intro (m : AssetMap) (p : PrincipalData) (a : AssetIdentifier)
    (v : Int) (h1 : I128_MIN ≤ (m.amount p a).getD 0 + v)
    (h2 : (m.amount p a).getD 0 + v ≤ I128_MAX) :
    m.add_transfer p a v = .ok (m.insertAmount p a ((m.amount p a).getD 0 + v)) := by
  unfold AssetMap.add_transfer
  rw [(get_next_amount_ok m p a v _).mpr ⟨rfl, h1, h2⟩]

theorem WF_insertAmount {m : AssetMap} (hwf : m.WF) {p : PrincipalData}
    {a : AssetIdentifier} {n : Int} (h1 : I128_MIN ≤ n) (h2 : n ≤ I128_MAX) :
    (m.insertAmount p a n).WF := by
  intro e he
  simp only [AssetMap.insertAmount] at he
  have hpm : ∀ x ∈ (assocGet p m.map).getD ([] : List (AssetIdentifier × Int)),
      I128_MIN ≤ x.2 ∧ x.2 ≤ I128_MAX := by
    cases hg : assocGet p m.map with
    | none => intro x hx; simp at hx
    | some pm0 => exact fun x hx => hwf (p, pm0) (assocGet_mem hg) x hx
  by_cases hc : assocContains p m.map = true
  · simp only [hc, if_true] at he
    rcases mem_assocInsert he with he | he
    · subst he
      intro x hx
      rcases mem_assocInsert hx with hx | hx
      · subst hx; exact ⟨h1, h2⟩
      · exact hpm x hx
    · exact hwf e he
  · simp only [hc, if_false, Bool.false_eq_true] at he
    rcases mem_assocInsert he with he | he
    · subst he
      intro x hx
      rcases mem_assocInsert hx with hx | hx
      · subst hx; exact ⟨h1, h2⟩
      · rw [assocGet_insert_self] at hx
        simp at hx
    · rcases mem_assocInsert he with he | he
      · subst he; intro x hx; simp at hx
      · exact hwf e he

theorem KeysUnique_insertAmount {m : AssetMap} (hku : m.KeysUnique)
    (p : PrincipalData) (a : AssetIdentifier) (n : Int) :
    (m.insertAmount p a n).KeysUnique := by
  obtain ⟨houter, hinner⟩ := hku
  have hpm : ((assocGet p m.map).getD ([] : List (AssetIdentifier × Int))).Pairwise
      (fun x y => x.1 ≠ y.1) := by
    cases hg : assocGet p m.map with
    | none => simp
    | some pm0 => exact hinner (p, pm0) (assocGet_mem hg)
  constructor
  · simp only [AssetMap.insertAmount]
    by_cases hc : assocContains p m.map = true
    · simp only [hc, if_true]
      exact pairwiseKeys_assocInsert houter
    · simp only [hc, if_false, Bool.false_eq_true]
      exact pairwiseKeys_assocInsert (pairwiseKeys_assocInsert houter)
  · intro e he
    simp only [AssetMap.insertAmount] at he
    by_cases hc : assocContains p m.map = true
    · simp only [hc, if_true] at he
      rcases mem_assocInsert he with he | he
      · subst he
        exact pairwiseKeys_assocInsert hpm
      · exact hinner e he
    · simp only [hc, if_false, Bool.false_eq_true] at he
      rcases mem_assocInsert he with he | he
      · subst he
        rw [assocGet_insert_self]
        exact pairwiseKeys_assocInsert List.Pairwise.nil
      · rcases mem_assocInsert he with he | he
        · subst he; simp
        · exact hinner e he

theorem AssetMap_new_WF : AssetMap.new.WF := by
  intro e he
  simp [AssetMap.new] at he

theorem AssetMap_new_KeysUnique : AssetMap.new.KeysUnique := by
  constructor
  · simp [AssetMap.new]
  · intro e he
    simp [AssetMap.new] at he

theorem WF_applyTransfers {ts : List (PrincipalData × AssetIdentifier × Int)} :
    ∀ {m m' : AssetMap}, m.WF → applyTransfers m ts = .ok m' → m'.WF := by
  induction ts with
  | nil =>
    intro m m' hwf h
    simp only [applyTransfers] at h
    cases h
    exact hwf
  | cons t rest ih =>
    obtain ⟨p, a, amt⟩ := t
    intro m m' hwf h
    simp only [applyTransfers] at h
    cases h1 : m.add_transfer p a amt with
    | error e => rw [h1] at h; cases h
    | ok m1 =>
      rw [h1] at h
      obtain ⟨heq, hr1, hr2⟩ := add_transfer_ok_elim _ _ _ _ _ h1
      subst heq
      exact ih (WF_insertAmount hwf hr1 hr2) h

theorem KeysUnique_applyTransfers {ts : List (PrincipalData × AssetIdentifier × Int)} :
    ∀ {m m' : AssetMap}, m.KeysUnique → applyTransfers m ts = .ok m' → m'.KeysUnique := by
  induction ts with
  | nil =>
    intro m m' hku h
    simp only [applyTransfers] at h
    cases h
    exact hku
  | cons t rest ih =>
    obtain ⟨p, a, amt⟩ := t
    intro m m' hku h
    simp only [applyTransfers] at h
    cases h1 : m.add_transfer p a amt with
    | error e => rw [h1] at h; cases h
    | ok m1 =>
      rw [h1] at h
      obtain ⟨heq, _, _⟩ := add_transfer_ok_elim _ _ _ _ _ h1
      subst heq
      exact ih (KeysUnique_insertAmount hku p a _) h

theorem mergeAmt_applyTransfers (mP : AssetMap)
    (ts : List (PrincipalData × AssetIdentifier × Int)) :
    ∀ (c d : AssetMap), (∀ q b, mergeAmt mP c q b = d.amount q b) →
    ∀ (c' d' : AssetMap), applyTransfers c ts = .ok c' → applyTransfers d ts = .ok d' →
    ∀ q b, mergeAmt mP c' q b = d'.amount q b := by
  induction ts with
  | nil =>
    intro c d hmerge c' d' hc hd
    simp only [applyTransfers] at hc hd
    cases hc; cases hd
    exact hmerge
  | cons t rest ih =>
    obtain ⟨p, a, amt⟩ := t
    intro c d hmerge c' d' hc hd
    simp only [applyTransfers] at hc hd
    cases h1 : c.add_transfer p a amt with
    | error e => rw [h1] at hc; cases hc
    | ok c1 =>
      rw [h1] at hc
      cases h2 : d.add_transfer p a amt with
      | error e => rw [h2] at hd; cases hd
      | ok d1 =>
        rw [h2] at hd
        obtain ⟨hc1eq, _, _⟩ := add_transfer_ok_elim _ _ _ _ _ h1
        obtain ⟨hd1eq, _, _⟩ := add_transfer_ok_elim _ _ _ _ _ h2
        subst hc1eq
        subst hd1eq
        refine ih _ _ ?_ c' d' hc hd
        intro q b
        unfold mergeAmt
        rw [amount_insertAmount, amount_insertAmount]
        by_cases hqb : q = p ∧ b = a
        · obtain ⟨hq, hb⟩ := hqb
          subst hq
          subst hb
          rw [if_pos ⟨rfl, rfl⟩, if_pos ⟨rfl, rfl⟩]
          have hm := hmerge q b
          unfold mergeAmt at hm
          cases hca : c.amount q b with
          | some v =>
            rw [hca] at hm
            have hm' : some ((mP.amount q b).getD 0 + v) = d.amount q b := hm
            rw [← hm']
            simp
            ring
          | none =>
            rw [hca] at hm
            have hm' : mP.amount q b = d.amount q b := hm
            rw [← hm']
            simp
        · rw [if_neg hqb, if_neg hqb]
          have hm := hmerge q b
          unfold mergeAmt at hm
          exact hm

theorem commitEntries_state (m : AssetMap) (p : PrincipalData)
    (l : List (AssetIdentifier × Int)) : (m.commitEntries p l).2 = m := by
  induction l with
  | nil => rfl
  | cons av rest ih =>
    obtain ⟨a, v⟩ := av
    simp only [AssetMap.commitEntries]
    cases m.get_next_amount p a v with
    | error e => rfl
    | ok n =>
      cases hrec : m.commitEntries p rest with
      | mk r s =>
        have hs : s = m := by
          have h := ih
          rw [hrec] at h
          exact h
        cases r with
        | error e => exact hs
        | ok adds => exact hs

theorem commitToAdd_state (l : List (PrincipalData × List (AssetIdentifier × Int))) :
    ∀ m : AssetMap, (m.commitToAdd l).2 = m := by
  induction l with
  | nil => intro m; rfl
  | cons pr rest ih =>
    obtain ⟨p, pm⟩ := pr
    intro m
    simp only [AssetMap.commitToAdd]
    cases hce : m.commitEntries p pm with
    | mk r s =>
      have hs : s = m := by
        have h := commitEntries_state m p pm
        rw [hce] at h
        exact h
      cases r with
      | error e => exact hs
      | ok adds =>
        rw [hs]
        simp only
        cases hrec : m.commitToAdd rest with
        | mk r' s' =>
          have hs' : s' = m := by
            have h := ih m
            rw [hrec] at h
            exact h
          cases r' with
          | error e => exact hs'
          | ok adds' => exact hs'

theorem commitEntries_fst (m : AssetMap) (p : PrincipalData)
    (l : List (AssetIdentifier × Int)) :
    (m.commitEntries p l).1 = nextList m (l.map (fun av => (p, av.1, av.2))) := by
  induction l with
  | nil => rfl
  | cons av rest ih =>
    obtain ⟨a, v⟩ := av
    simp only [AssetMap.commitEntries, List.map_cons, nextList]
    cases m.get_next_amount p a v with
    | error e => rfl
    | ok n =>
      cases hrec : m.commitEntries p rest with
      | mk r s =>
        have hr : r = nextList m (rest.map (fun av => (p, av.1, av.2))) := by
          have h := ih
          rw [hrec] at h
          exact h
        rw [hr]
        cases nextList m (rest.map (fun av => (p, av.1, av.2))) with
        | error e => rfl
        | ok adds => rfl

theorem nextList_append (m : AssetMap) (l2 : List (PrincipalData × AssetIdentifier × Int)) :
    ∀ l1, nextList m (l1 ++ l2) =
      (match nextList m l1 with
       | .error e => .error e
       | .ok a =>
         match nextList m l2 with
         | .error e => .error e
         | .ok b => .ok (a ++ b)) := by
  intro l1
  induction l1 with
  | nil =>
    simp only [List.nil_append, nextList]
    cases nextList m l2 with
    | error e => rfl
    | ok b => rfl
  | cons t rest ih =>
    obtain ⟨p, a, v⟩ := t
    have hstep : nextList m ((p, a, v) :: (rest ++ l2)) =
        (match m.get_next_amount p a v with
         | .error e => .error e
         | .ok n =>
           match nextList m (rest ++ l2) with
           | .error e => .error e
           | .ok ns => .ok ((p, a, n) :: ns)) := rfl
    have hstep2 : nextList m ((p, a, v) :: rest) =
        (match m.get_next_amount p a v with
         | .error e => .error e
         | .ok n =>
           match nextList m rest with
           | .error e => .error e
           | .ok ns => .ok ((p, a, n) :: ns)) := rfl
    rw [List.cons_append, hstep, ih, hstep2]
    cases m.get_next_amount p a v with
    | error e => rfl
    | ok n =>
      cases nextList m rest with
      | error e => rfl
      | ok x =>
        cases nextList m l2 with
        | error e => rfl
        | ok y => rfl

theorem commitToAdd_fst (l : List (PrincipalData × List (AssetIdentifier × Int))) :
    ∀ m : AssetMap, (m.commitToAdd l).1 =
      nextList m (l.flatMap (fun pr => pr.2.map (fun av => (pr.1, av.1, av.2)))) := by
  induction l with
  | nil => intro m; rfl
  | cons pr rest ih =>
    obtain ⟨p, pm⟩ := pr
    intro m
    simp only [AssetMap.commitToAdd, List.flatMap_cons, nextList_append]
    cases hce : m.commitEntries p pm with
    | mk r s =>
      have hs : s = m := by
        have h := commitEntries_state m p pm
        rw [hce] at h
        exact h
      have hr : r = nextList m (pm.map (fun av => (p, av.1, av.2))) := by
        have h := commitEntries_fst m p pm
        rw [hce] at h
        exact h
      rw [hs, hr]
      cases nextList m (pm.map (fun av => (p, av.1, av.2))) with
      | error e => rfl
      | ok adds =>
        simp only
        cases hrec : m.commitToAdd rest with
        | mk r' s' =>
          have hr' : r' = nextList m
              (rest.flatMap (fun pr => pr.2.map (fun av => (pr.1, av.1, av.2)))) := by
            have h := ih m
            rw [hrec] at h
            exact h
          rw [hr']
          cases nextList m (rest.flatMap (fun pr => pr.2.map (fun av => (pr.1, av.1, av.2)))) with
          | error e => rfl
          | ok adds' => rfl

theorem nextList_ok_map (m : AssetMap) (l : List (PrincipalData × AssetIdentifier × Int))
    (h : ∀ t ∈ l, I128_MIN ≤ (m.amount t.1 t.2.1).getD 0 + t.2.2 ∧
      (m.amount t.1 t.2.1).getD 0 + t.2.2 ≤ I128_MAX) :
    nextList m l = .ok (l.map (nextOf m)) := by
  induction l with
  | nil => rfl
  | cons t rest ih =>
    obtain ⟨p, a, v⟩ := t
    obtain ⟨h1, h2⟩ := h (p, a, v) (List.mem_cons_self _ _)
    simp only [nextList, List.map_cons]
    rw [(get_next_amount_ok m p a v _).mpr ⟨rfl, h1, h2⟩,
      ih (fun t ht => h t (List.mem_cons_of_mem _ ht))]
    rfl

theorem findAmt_none (l : List (PrincipalData × AssetIdentifier × Int))
    (q : PrincipalData) (b : AssetIdentifier)
    (h : ∀ t ∈ l, ¬(t.1 = q ∧ t.2.1 = b)) : findAmt l q b = none := by
  induction l with
  | nil => rfl
  | cons t rest ih =>
    obtain ⟨p, a, n⟩ := t
    simp only [findAmt]
    rw [if_neg (h (p, a, n) (List.mem_cons_self _ _))]
    exact ih (fun t ht => h t (List.mem_cons_of_mem _ ht))

theorem findAmt_mem {l : List (PrincipalData × AssetIdentifier × Int)}
    (hd : DistinctKeys l) {t : PrincipalData × AssetIdentifier × Int} (ht : t ∈ l) :
    findAmt l t.1 t.2.1 = some t.2.2 := by
  induction l with
  | nil => simp at ht
  | cons u rest ih =>
    obtain ⟨p, a, n⟩ := u
    unfold DistinctKeys at hd
    rw [List.pairwise_cons] at hd
    obtain ⟨hhd, htl⟩ := hd
    rcases List.mem_cons.mp ht with ht | ht
    · subst ht
      simp [findAmt]
    · simp only [findAmt]
      rw [if_neg (hhd t ht)]
      exact ih htl ht

theorem findAmt_map_nextOf (m : AssetMap) (l : List (PrincipalData × AssetIdentifier × Int))
    (q : PrincipalData) (b : AssetIdentifier) :
    findAmt (l.map (nextOf m)) q b =
      (findAmt l q b).map (fun v => (m.amount q b).getD 0 + v) := by
  induction l with
  | nil => rfl
  | cons t rest ih =>
    obtain ⟨p, a, v⟩ := t
    simp only [List.map_cons, nextOf, findAmt]
    by_cases hqb : p = q ∧ a = b
    · obtain ⟨hq, hb⟩ := hqb
      subst hq
      subst hb
      rw [if_pos ⟨rfl, rfl⟩, if_pos ⟨rfl, rfl⟩]
      rfl
    · rw [if_neg hqb, if_neg hqb]
      exact ih

theorem DistinctKeys_map_nextOf (m : AssetMap)
    {l : List (PrincipalData × AssetIdentifier × Int)} (h : DistinctKeys l) :
    DistinctKeys (l.map (nextOf m)) := by
  unfold DistinctKeys at h ⊢
  rw [List.pairwise_map]
  exact h.imp (fun hst hc => hst ⟨hc.1, hc.2⟩)

theorem amount_applyAdds {l : List (PrincipalData × AssetIdentifier × Int)}
    (hd : DistinctKeys l) :
    ∀ (m : AssetMap) (q : PrincipalData) (b : AssetIdentifier),
      (AssetMap.applyAdds m l).amount q b =
        (match findAmt l q b with
         | some n => some n
         | none => m.amount q b) := by
  induction l with
  | nil => intro m q b; rfl
  | cons t rest ih =>
    obtain ⟨p, a, n⟩ := t
    unfold DistinctKeys at hd
    rw [List.pairwise_cons] at hd
    obtain ⟨hhd, htl⟩ := hd
    intro m q b
    simp only [AssetMap.applyAdds, findAmt]
    rw [ih htl]
    by_cases hqb : p = q ∧ a = b
    · obtain ⟨hq, hb⟩ := hqb
      subst hq
      subst hb
      rw [if_pos ⟨rfl, rfl⟩]
      rw [findAmt_none rest p a (fun t ht hc => hhd t ht ⟨hc.1.symm, hc.2.symm⟩)]
      simp [amount_insertAmount]
    · rw [if_neg hqb]
      have hins := amount_insertAmount m p a n q b
      rw [if_neg (fun hc : q = p ∧ b = a => hqb ⟨hc.1.symm, hc.2.symm⟩)] at hins
      rw [hins]

theorem findAmt_append (l1 l2 : List (PrincipalData × AssetIdentifier × Int))
    (q : PrincipalData) (b : AssetIdentifier) :
    findAmt (l1 ++ l2) q b =
      (match findAmt l1 q b with
       | some n => some n
       | none => findAmt l2 q b) := by
  induction l1 with
  | nil => rfl
  | cons t rest ih =>
    obtain ⟨p, a, n⟩ := t
    simp only [List.cons_append, findAmt]
    by_cases hqb : p = q ∧ a = b
    · rw [if_pos hqb, if_pos hqb]
    · rw [if_neg hqb, if_neg hqb]
      exact ih

theorem findAmt_inner_self (p : PrincipalData) (pm : List (AssetIdentifier × Int))
    (b : AssetIdentifier) :
    findAmt (pm.map (fun av => (p, av.1, av.2))) p b = assocGet b pm := by
  induction pm with
  | nil => rfl
  | cons av rest ih =>
    obtain ⟨a, v⟩ := av
    simp only [List.map_cons, findAmt, assocGet]
    by_cases hb : a = b
    · rw [if_pos ⟨trivial, hb⟩, if_pos hb]
    · rw [if_neg (fun hc => hb hc.2), if_neg hb]
      exact ih

theorem findAmt_inner_ne {p q : PrincipalData} (hpq : p ≠ q)
    (pm : List (AssetIdentifier × Int)) (b : AssetIdentifier) :
    findAmt (pm.map (fun av => (p, av.1, av.2))) q b = none := by
  apply findAmt_none
  intro t ht
  rw [List.mem_map] at ht
  obtain ⟨av, _, rfl⟩ := ht
  exact fun hc => hpq hc.1

theorem findAmt_flat (l : List (PrincipalData × List (AssetIdentifier × Int)))
    (houter : l.Pairwise (fun x y => x.1 ≠ y.1))
    (q : PrincipalData) (b : AssetIdentifier) :
    findAmt (l.flatMap (fun pr => pr.2.map (fun av => (pr.1, av.1, av.2)))) q b =
      (assocGet q l).bind (fun pm => assocGet b pm) := by
  induction l with
  | nil => rfl
  | cons pr rest ih =>
    obtain ⟨p, pm⟩ := pr
    rw [List.pairwise_cons] at houter
    obtain ⟨hhd, htl⟩ := houter
    simp only [List.flatMap_cons, assocGet]
    rw [findAmt_append]
    by_cases hq : p = q
    · subst hq
      rw [if_pos rfl, Option.some_bind, findAmt_inner_self]
      cases hg : assocGet b pm with
      | some v => rfl
      | none =>
        have hnone : findAmt (rest.flatMap
            (fun pr => pr.2.map (fun av => (pr.1, av.1, av.2)))) p b = none := by
          apply findAmt_none
          intro t ht
          rw [List.mem_flatMap] at ht
          obtain ⟨pr', hpr', ht⟩ := ht
          rw [List.mem_map] at ht
          obtain ⟨av, _, rfl⟩ := ht
          exact fun hc => hhd pr' hpr' hc.1.symm
        rw [hnone]
    · rw [if_neg hq, findAmt_inner_ne hq]
      exact ih htl

theorem DistinctKeys_flat (l : List (PrincipalData × List (AssetIdentifier × Int)))
    (houter : l.Pairwise (fun x y => x.1 ≠ y.1))
    (hinner : ∀ e ∈ l, e.2.Pairwise (fun x y => x.1 ≠ y.1)) :
    DistinctKeys (l.flatMap (fun pr => pr.2.map (fun av => (pr.1, av.1, av.2)))) := by
  induction l with
  | nil => exact List.Pairwise.nil
  | cons pr rest ih =>
    obtain ⟨p, pm⟩ := pr
    rw [List.pairwise_cons] at houter
    obtain ⟨hhd, htl⟩ := houter
    simp only [List.flatMap_cons]
    unfold DistinctKeys
    rw [List.pairwise_append]
    refine ⟨?_, ?_, ?_⟩
    · rw [List.pairwise_map]
      exact (hinner (p, pm) (List.mem_cons_self _ _)).imp (fun hxy hc => hxy hc.2)
    · exact ih htl (fun e he => hinner e (List.mem_cons_of_mem _ he))
    · intro x hx y hy
      rw [List.mem_map] at hx
      obtain ⟨av, _, rfl⟩ := hx
      rw [List.mem_flatMap] at hy
      obtain ⟨pr', hpr', hy⟩ := hy
      rw [List.mem_map] at hy
      obtain ⟨av', _, rfl⟩ := hy
      exact fun hc => hhd pr' hpr' hc.1

theorem WF_amount {m : AssetMap} (hwf : m.WF) {q : PrincipalData} {b : AssetIdentifier}
    {v : Int} (h : m.amount q b = some v) : I128_MIN ≤ v ∧ v ≤ I128_MAX := by
  unfold AssetMap.amount at h
  cases hg : assocGet q m.map with
  | none => rw [hg] at h; cases h
  | some pm =>
    rw [hg, Option.some_bind] at h
    exact hwf (q, pm) (assocGet_mem hg) (b, v) (assocGet_mem h)

/-- C1: if `AssetMap::commit_other(child)` fails with an error (some merged
amount overflows `i128`), the parent map's contents after the call are
exactly its contents before the call — no partial merge is visible. -/
theorem C1_commit_other_atomic (self other : AssetMap) (e : VmError)
    (h : (self.commit_other other).1 = .error e) :
    (self.commit_other other).2 = self := by
  unfold AssetMap.commit_other at h ⊢
  cases hta : self.commitToAdd other.map with
  | mk r s =>
    have hs : s = self := by
      have h2 := commitToAdd_state other.map self
      rw [hta] at h2
      exact h2
    rw [hta] at h
    cases r with
    | error e' => exact hs
    | ok ta => exact Except.noConfusion h

/-- Witness for C1: a concrete merge that overflows `i128::MAX` leaves the
parent unchanged. -/
theorem C1_commit_other_atomic_witness :
    (maxEx.commit_other oneEx).1 = .error (.Runtime .ArithmeticOverflow) ∧
    (maxEx.commit_other oneEx).2 = maxEx :=
  ⟨by decide, C1_commit_other_atomic maxEx oneEx (.Runtime .ArithmeticOverflow) (by decide)⟩

/-- C2: for a parent map and a transfer sequence with no overflow anywhere
(the sequence accumulates in a fresh child, and also applies directly to the
parent), `commit_other(child)` succeeds and yields exactly the state direct
application yields; in particular the merge adds the child's final amount per
`(principal, asset)` to the parent's current amount. -/
theorem C2_commit_other_merges (parent child direct : AssetMap)
    (ts : List (PrincipalData × AssetIdentifier × Int))
    (hwf : parent.WF)
    (hchild : applyTransfers AssetMap.new ts = .ok child)
    (hdirect : applyTransfers parent ts = .ok direct) :
    (parent.commit_other child).1 = .ok () ∧
    (∀ q b, (parent.commit_other child).2.amount q b = direct.amount q b) ∧
    (∀ q b v, child.amount q b = some v →
      (parent.commit_other child).2.amount q b =
        some ((parent.amount q b).getD 0 + v)) := by
  have hsim : ∀ q b, mergeAmt parent child q b = direct.amount q b := by
    apply mergeAmt_applyTransfers parent ts AssetMap.new parent _ child direct hchild hdirect
    intro q b
    unfold mergeAmt
    have hn : AssetMap.new.amount q b = none := rfl
    rw [hn]
  have hku : child.KeysUnique := KeysUnique_applyTransfers AssetMap_new_KeysUnique hchild
  have hwfd : direct.WF := WF_applyTransfers hwf hdirect
  have hdk : DistinctKeys (entriesOf child) := DistinctKeys_flat child.map hku.1 hku.2
  have hflat : ∀ q b, findAmt (entriesOf child) q b = child.amount q b :=
    fun q b => findAmt_flat child.map hku.1 q b
  have hrange : ∀ t ∈ entriesOf child,
      I128_MIN ≤ (parent.amount t.1 t.2.1).getD 0 + t.2.2 ∧
      (parent.amount t.1 t.2.1).getD 0 + t.2.2 ≤ I128_MAX := by
    intro t ht
    have hca : child.amount t.1 t.2.1 = some t.2.2 := by
      rw [← hflat t.1 t.2.1]
      exact findAmt_mem hdk ht
    have hm := hsim t.1 t.2.1
    unfold mergeAmt at hm
    rw [hca] at hm
    exact WF_amount hwfd hm.symm
  have hnl : nextList parent (entriesOf child) =
      .ok ((entriesOf child).map (nextOf parent)) :=
    nextList_ok_map parent (entriesOf child) hrange
  have hfst : (parent.commitToAdd child.map).1 = nextList parent (entriesOf child) :=
    commitToAdd_fst child.map parent
  have hsnd : (parent.commitToAdd child.map).2 = parent := commitToAdd_state child.map parent
  have hpair : parent.commitToAdd child.map =
      (.ok ((entriesOf child).map (nextOf parent)), parent) :=
    Prod.ext_iff.mpr ⟨by rw [hfst, hnl], hsnd⟩
  have hco : parent.commit_other child =
      (.ok (), AssetMap.applyAdds parent ((entriesOf child).map (nextOf parent))) := by
    unfold AssetMap.commit_other
    rw [hpair]
  have hdk2 : DistinctKeys ((entriesOf child).map (nextOf parent)) :=
    DistinctKeys_map_nextOf parent hdk
  refine ⟨by rw [hco], ?_, ?_⟩
  · intro q b
    rw [hco]
    have hap := amount_applyAdds hdk2 parent q b
    rw [findAmt_map_nextOf, hflat q b] at hap
    rw [hap, ← hsim q b]
    unfold mergeAmt
    cases child.amount q b with
    | some v => rfl
    | none => rfl
  · intro q b v hcv
    rw [hco]
    have hap := amount_applyAdds hdk2 parent q b
    rw [findAmt_map_nextOf, hflat q b, hcv] at hap
    rw [hap]
    rfl

/-- Witness for C2 at a concrete parent, transfer sequence, child and direct
result. -/
theorem C2_commit_other_merges_witness :
    parentEx.WF ∧
    applyTransfers AssetMap.new tsEx = .ok childEx ∧
    applyTransfers parentEx tsEx = .ok directEx ∧
    (parentEx.commit_other childEx).1 = .ok () ∧
    (parentEx.commit_other childEx).2.amount "p" tokA = directEx.amount "p" tokA :=
  ⟨by decide, by decide, by decide,
    (C2_commit_other_merges parentEx childEx directEx tsEx (by decide) (by decide)
      (by decide)).1,
    (C2_commit_other_merges parentEx childEx directEx tsEx (by decide) (by decide)
      (by decide)).2.1 "p" tokA⟩

theorem commit_error_rolledBack {σ : Type} (g : GlobalContext σ) (e : VmError)
    (pm' : Option AssetMap) (out : SpOutcome)
    (h : g.commit = (.error e, pm', out)) : out = .rolledBack := by
  unfold GlobalContext.commit at h
  cases hpm : g.parent_map with
  | none => rw [hpm] at h; simp at h
  | some pm =>
    rw [hpm] at h
    simp only at h
    cases hco : pm.commit_other g.asset_map with
    | mk r s =>
      rw [hco] at h
      cases r with
      | error e' =>
        simp only [Prod.mk.injEq] at h
        exact h.2.2.symm
      | ok u => simp at h

/-- Counterexample to C3 as stated: with a parent asset map already holding
`i128::MAX` for an entry the child also holds, `handle_tx_result` on
`Ok(Response{committed: true})` does not commit-and-return-the-value — the
merge overflows and the `ArithmeticOverflow` error propagates instead. -/
theorem C3_handle_tx_result_counterexample :
    (gOverflowEx.handle_tx_result (.ok (.Response true (.BoolVal true)))).1 =
      .error (.Runtime .ArithmeticOverflow) ∧
    (gOverflowEx.handle_tx_result (.ok (.Response true (.BoolVal true)))).1 ≠
      .ok (.Response true (.BoolVal true)) := by
  decide

/-- C3 amended: `handle_tx_result` performs the four-case disposition, with
the `Ok(Response{committed: true})` case split on the outcome of the commit:
the scope is committed and the value returned when the merge succeeds, and
the merge error is propagated with the save point not committed when it
fails; `Ok(Response{committed: false})` rolls back and returns the value;
`Ok` of a non-`Response` value fails with `ContractMustReturnBoolean` and the
save point is rolled back (dropped); `Err` rolls back and propagates. -/
theorem C3_handle_tx_result_cases {σ : Type} (g : GlobalContext σ)
    (result : Except VmError Value) :
    (∀ d om pm' out, result = .ok (.Response true d) → g.commit = (.ok om, pm', out) →
      g.handle_tx_result result = (.ok (.Response true d), pm', out)) ∧
    (∀ d e pm' out, result = .ok (.Response true d) → g.commit = (.error e, pm', out) →
      g.handle_tx_result result = (.error e, pm', out) ∧ out ≠ .committed) ∧
    (∀ d, result = .ok (.Response false d) →
      g.handle_tx_result result = (.ok (.Response false d), g.parent_map, .rolledBack)) ∧
    (∀ v, result = .ok v → (∀ c d, v ≠ .Response c d) →
      g.handle_tx_result result =
        (.error (.Unchecked .ContractMustReturnBoolean), g.parent_map, .rolledBack)) ∧
    (∀ e, result = .error e →
      g.handle_tx_result result = (.error e, g.parent_map, .rolledBack)) := by
  refine ⟨?_, ?_, ?_, ?_, ?_⟩
  · intro d om pm' out h1 h2
    subst h1
    have hred : g.handle_tx_result (.ok (.Response true d)) =
        (match g.commit with
         | (.ok _, pm', out) => (.ok (.Response true d), pm', out)
         | (.error e, pm', out) => (.error e, pm', out)) := rfl
    rw [hred, h2]
  · intro d e pm' out h1 h2
    subst h1
    have hred : g.handle_tx_result (.ok (.Response true d)) =
        (match g.commit with
         | (.ok _, pm', out) => (.ok (.Response true d), pm', out)
         | (.error e, pm', out) => (.error e, pm', out)) := rfl
    refine ⟨by rw [hred, h2], ?_⟩
    rw [commit_error_rolledBack g e pm' out h2]
    intro hc
    cases hc
  · intro d h1
    subst h1
    rfl
  · intro v h1 hne
    subst h1
    cases v with
    | Principal p => rfl
    | Response c d => exact absurd rfl (hne c d)
    | IntVal i => rfl
    | BoolVal b => rfl
  · intro e h1
    subst h1
    rfl

/-- Witness for the C3 amended theorem: a concrete
`Ok(Response{committed: false})` rolls back and returns the value. -/
theorem C3_handle_tx_result_cases_witness :
    gRootEx.handle_tx_result (.ok (.Response false (.BoolVal true))) =
      (.ok (.Response false (.BoolVal true)), none, .rolledBack) :=
  (C3_handle_tx_result_cases gRootEx (.ok (.Response false (.BoolVal true)))).2.2.1
    (.BoolVal true) rfl

/-- C4: `GlobalContext::commit`: with a parent asset map bound, it merges via
`commit_other` and commits the save point only on success, returning `none`;
with no parent it commits the save point and returns the child asset map;
whenever `commit_other` fails, the save point is not committed. -/
theorem C4_global_commit (σ : Type) (g : GlobalContext σ) :
    (g.parent_map = none → g.commit = (.ok (some g.asset_map), none, .committed)) ∧
    (∀ pm pm', g.parent_map = some pm → pm.commit_other g.asset_map = (.ok (), pm') →
      g.commit = (.ok none, some pm', .committed)) ∧
    (∀ pm e pm', g.parent_map = some pm → pm.commit_other g.asset_map = (.error e, pm') →
      g.commit = (.error e, some pm', .rolledBack) ∧ (g.commit).2.2 ≠ .committed) := by
  refine ⟨?_, ?_, ?_⟩
  · intro h
    unfold GlobalContext.commit
    rw [h]
  · intro pm pm' h1 h2
    unfold GlobalContext.commit
    rw [h1]
    simp only
    rw [h2]
  · intro pm e pm' h1 h2
    have hres : g.commit = (.error e, some pm', .rolledBack) := by
      unfold GlobalContext.commit
      rw [h1]
      simp only
      rw [h2]
    exact ⟨hres, by rw [hres]; intro hc; cases hc⟩

/-- Witness for C4: a concrete root context commits and returns its asset
map. -/
theorem C4_global_commit_witness :
    gRootEx.commit = (.ok (some oneEx), none, .committed) :=
  (C4_global_commit Nat gRootEx).1 rfl

/-- C5: `eval_read_only` returns the caller's context (and so the database
save-point state) unchanged on every path — the nested save point is rolled
back unconditionally — and, whenever the call reaches evaluation, the
evaluation result (`Ok` or `Err`) is returned as-is. -/
theorem C5_eval_read_only_pure {σ : Type}
    (parse : String → Except VmError (List SymbolicExpression))
    (get_contract : σ → String → Except VmError Contract)
    (eval1 : SymbolicExpression → Contract → Option Value → Option Value →
      GlobalContext σ → CallStack → Except VmError Value × GlobalContext σ × CallStack)
    (g : GlobalContext σ) (cs : CallStack) (sender caller : Option Value)
    (contract_name program : String) :
    (eval_read_only parse get_contract eval1 g cs sender caller
      contract_name program).2.1 = g ∧
    (∀ e0 rest contract, parse program = .ok (e0 :: rest) →
      get_contract g.database.currentState contract_name = .ok contract →
      (eval_read_only parse get_contract eval1 g cs sender caller
        contract_name program).1 = (eval1 e0 contract sender caller g.nest cs).1) := by
  constructor
  · unfold eval_read_only
    cases parse program with
    | error e => rfl
    | ok parsed =>
      cases parsed with
      | nil => rfl
      | cons e0 rest =>
        cases get_contract g.database.currentState contract_name with
        | error e => rfl
        | ok contract =>
          cases heval : eval1 e0 contract sender caller g.nest cs with
          | mk r rest2 =>
            cases rest2 with
            | mk g' cs' => rfl
  · intro e0 rest contract hp hg
    unfold eval_read_only
    rw [hp]
    simp only
    rw [hg]

/-- Witness for C5: a concrete evaluation that mutates the nested save point
still leaves the caller's context untouched and returns the evaluator's
result. -/
theorem C5_eval_read_only_pure_witness :
    (eval_read_only parseEx getContractEx eval1Ex gRootEx CallStack.new none none
      "c" "prog").2.1 = gRootEx ∧
    (eval_read_only parseEx getContractEx eval1Ex gRootEx CallStack.new none none
      "c" "prog").1 = .ok (.BoolVal true) :=
  ⟨(C5_eval_read_only_pure parseEx getContractEx eval1Ex gRootEx CallStack.new none none
      "c" "prog").1,
   by
    rw [(C5_eval_read_only_pure parseEx getContractEx eval1Ex gRootEx CallStack.new none
      none "c" "prog").2 ⟨0⟩ [] ⟨ContractContext.new "c"⟩ rfl rfl]
    rfl⟩

/-- C6: evaluating the embedded `CallStack::remove` at the failing input: on
a nonempty stack `["f"]` with mismatched identifier `"g"`, the code returns
an `InterpreterError` (whose message speaks of an *empty* call stack) with
the pop persisted; it does not terminate the process as the claim (and the
spec's programmer-error classification) requires. -/
theorem C6_remove_mismatch_behavior :
    CallStack.remove ⟨["f"], []⟩ "g" false =
      .err (.Interpreter (.InterpreterError "Tried to remove item from empty call stack."))
        ⟨[], []⟩ ∧
    CallStack.remove ⟨["f"], []⟩ "g" false ≠ .panicked := by
  decide

theorem contains_mem {l : List FunctionIdentifier} {x : FunctionIdentifier} :
    l.contains x = true ↔ x ∈ l := by simp

/-- Counterexample to C7 as stated: `insert(f, track := true)` followed by a
successful `remove(f, tracked := false)` reaches a stack whose tracked set
contains `"f"` while the stack is empty — the set-⊆-stack invariant fails. -/
theorem C7_set_subset_counterexample :
    CSReachable ⟨[], ["f"]⟩ ∧ ¬ SetSubStack ⟨[], ["f"]⟩ := by
  constructor
  · exact CSReachable.step_remove "f" false
      (CSReachable.step_insert "f" true CSReachable.base) (by decide)
  · decide

/-- C7 amended: the set-⊆-stack invariant holds for every call stack
reachable from `new` by `insert` and successful `remove`, provided each
removal either passes `tracked = true` or removes an identifier that is not
currently tracked (a successful `remove` with `tracked = false` of a tracked
identifier can break the invariant). -/
theorem C7_set_subset_invariant (cs : CallStack) (h : CSReachableOk cs) :
    SetSubStack cs := by
  have key : SetSubStack cs ∧ cs.set.Nodup := by
    induction h with
    | base =>
      constructor
      · intro f hf
        simp [CallStack.new] at hf
      · simp [CallStack.new]
    | @step_insert cs f track hr ih =>
      obtain ⟨hsub, hnd⟩ := ih
      constructor
      · intro x hx
        simp only [CallStack.insert] at hx ⊢
        have hx' : x = f ∨ x ∈ cs.set := by
          by_cases ht : track = true
          · rw [if_pos ht] at hx
            by_cases hc : cs.set.contains f = true
            · rw [if_pos hc] at hx
              exact Or.inr hx
            · rw [if_neg hc] at hx
              exact (List.mem_cons.mp hx).imp id id
          · rw [if_neg ht] at hx
            exact Or.inr hx
        rcases hx' with h | h
        · exact h ▸ List.mem_cons_self _ _
        · exact List.mem_cons_of_mem _ (hsub x h)
      · simp only [CallStack.insert]
        by_cases ht : track = true
        · rw [if_pos ht]
          by_cases hc : cs.set.contains f = true
          · rw [if_pos hc]
            exact hnd
          · rw [if_neg hc]
            exact List.nodup_cons.mpr ⟨fun hm => hc (contains_mem.mpr hm), hnd⟩
        · rw [if_neg ht]
          exact hnd
    | @step_remove cs cs' f tracked hr hside hrem ih =>
      obtain ⟨hsub, hnd⟩ := ih
      unfold CallStack.remove at hrem
      cases hstack : cs.stack with
      | nil =>
        rw [hstack] at hrem
        cases hrem
      | cons removed rest =>
        rw [hstack] at hrem
        simp only at hrem
        by_cases hne : removed ≠ f
        · rw [if_pos hne] at hrem
          cases hrem
        · rw [if_neg hne] at hrem
          push_neg at hne
          by_cases hpan : tracked = true ∧ ¬ (cs.set.contains f = true)
          · rw [if_pos hpan] at hrem
            cases hrem
          · rw [if_neg hpan] at hrem
            cases hrem
            constructor
            · intro x hx
              simp only at hx ⊢
              by_cases ht : tracked = true
              · rw [if_pos ht] at hx
                have hxf : x ≠ f ∧ x ∈ cs.set := (List.Nodup.mem_erase_iff hnd).mp hx
                have hxs : x ∈ cs.stack := hsub x hxf.2
                rw [hstack] at hxs
                rcases List.mem_cons.mp hxs with hcase | hcase
                · exact absurd (hcase.trans hne) hxf.1
                · exact hcase
              · rw [if_neg ht] at hx
                have hcf : cs.set.contains f = false := by
                  rcases hside with hh | hh
                  · exact absurd hh ht
                  · exact hh
                have hxs : x ∈ cs.stack := hsub x hx
                rw [hstack] at hxs
                rcases List.mem_cons.mp hxs with hcase | hcase
                · exfalso
                  have hfx : x = f := hcase.trans hne
                  have : f ∈ cs.set := hfx ▸ hx
                  rw [← contains_mem] at this
                  rw [hcf] at this
                  cases this
                · exact hcase
            · simp only
              by_cases ht : tracked = true
              · rw [if_pos ht]
                exact hnd.erase f
              · rw [if_neg ht]
                exact hnd
  exact key.1

/-- Witness for C7 at a concrete reachable stack. -/
theorem C7_set_subset_invariant_witness :
    SetSubStack (CallStack.insert CallStack.new "f" true) :=
  C7_set_subset_invariant _ (CSReachableOk.step_insert "f" true CSReachableOk.base)

theorem extend_error_iff (lc : LocalContext) :
    lc.extend = .error (.Runtime .MaxContextDepthReached) ↔
      MAX_CONTEXT_DEPTH ≤ lc.depth := by
  unfold LocalContext.extend
  by_cases h : MAX_CONTEXT_DEPTH ≤ lc.depth
  · rw [if_pos h]
    exact ⟨fun _ => h, fun _ => rfl⟩
  · rw [if_neg h]
    exact ⟨fun hc => Except.noConfusion hc, fun hc => absurd hc h⟩

theorem extendN_ok_depth : ∀ (n : Nat) (lc lc' : LocalContext),
    extendN lc n = .ok lc' → lc'.depth = lc.depth + n := by
  intro n
  induction n with
  | zero =>
    intro lc lc' h
    cases h
    rfl
  | succ k ih =>
    intro lc lc' h
    simp only [extendN] at h
    cases hx : lc.extend with
    | error e =>
      rw [hx] at h
      cases h
    | ok lc1 =>
      rw [hx] at h
      have hd : lc1.depth = lc.depth + 1 := by
        unfold LocalContext.extend at hx
        by_cases hc : MAX_CONTEXT_DEPTH ≤ lc.depth
        · rw [if_pos hc] at hx
          cases hx
        · rw [if_neg hc] at hx
          cases hx
          rfl
      rw [ih lc1 lc' h, hd]
      omega

theorem extendN_ok_exists : ∀ (n : Nat) (lc : LocalContext),
    lc.depth + n ≤ MAX_CONTEXT_DEPTH → ∃ lc', extendN lc n = .ok lc' := by
  intro n
  induction n with
  | zero => exact fun lc _ => ⟨lc, rfl⟩
  | succ k ih =>
    intro lc h
    have hx : lc.extend = .ok (.mk (some lc) [] (lc.depth + 1)) := by
      unfold LocalContext.extend
      rw [if_neg (by omega)]
    have hd : (LocalContext.mk (some lc) [] (lc.depth + 1)).depth + k ≤ MAX_CONTEXT_DEPTH := by
      show lc.depth + 1 + k ≤ MAX_CONTEXT_DEPTH
      omega
    obtain ⟨lc', hlc'⟩ := ih (LocalContext.mk (some lc) [] (lc.depth + 1)) hd
    refine ⟨lc', ?_⟩
    simp only [extendN]
    rw [hx]
    exact hlc'

/-- C8: `LocalContext::extend` fails with `MaxContextDepthReached` exactly
when the depth is at least 256, otherwise yields a child whose parent is the
receiver and whose depth is one greater; 256 successive extends from a fresh
root succeed, and the 257th always fails. -/
theorem C8_local_context_extend (lc : LocalContext) :
    (lc.extend = .error (.Runtime .MaxContextDepthReached) ↔
      MAX_CONTEXT_DEPTH ≤ lc.depth) ∧
    (lc.depth < MAX_CONTEXT_DEPTH →
      lc.extend = .ok (.mk (some lc) [] (lc.depth + 1))) ∧
    (∃ lc', extendN LocalContext.new 256 = .ok lc') ∧
    (∀ lc', extendN LocalContext.new 256 = .ok lc' →
      lc'.extend = .error (.Runtime .MaxContextDepthReached)) := by
  refine ⟨extend_error_iff lc, ?_, ?_, ?_⟩
  · intro h
    unfold LocalContext.extend
    rw [if_neg (by omega)]
  · exact extendN_ok_exists 256 LocalContext.new (by decide)
  · intro lc' h
    have hd : lc'.depth = 256 := by
      have := extendN_ok_depth 256 LocalContext.new lc' h
      simpa using this
    exact (extend_error_iff lc').mpr (by rw [hd]; decide)

/-- Witness for C8: the first extend from a fresh root. -/
theorem C8_local_context_extend_witness :
    LocalContext.new.extend = .ok (.mk (some LocalContext.new) [] 1) :=
  (C8_local_context_extend LocalContext.new).2.1 (by decide)

theorem applyNests_read_only {σ : Type} :
    ∀ (steps : List NestStep) (g : GlobalContext σ), g.read_only = true →
      (applyNests g steps).read_only = true := by
  intro steps
  induction steps with
  | nil => exact fun g h => h
  | cons s rest ih =>
    intro g h
    cases s with
    | plain => exact ih g.nest h
    | readOnly => exact ih g.nest_read_only rfl

/-- C9: `read_only` is monotonically inherited: `nest` copies the parent's
flag, `nest_read_only` forces it to `true`, and every descendant (any
sequence of nest steps) of a read-only context is read-only. -/
theorem C9_read_only_monotone {σ : Type} (g : GlobalContext σ) :
    g.nest.read_only = g.read_only ∧
    g.nest_read_only.read_only = true ∧
    (g.read_only = true → ∀ steps : List NestStep,
      (applyNests g steps).read_only = true) := by
  exact ⟨rfl, rfl, fun h steps => applyNests_read_only steps g h⟩

/-- Witness for C9: two nested steps below a concrete read-only root stay
read-only. -/
theorem C9_read_only_monotone_witness :
    (applyNests gRootEx [NestStep.plain, NestStep.readOnly]).read_only = true :=
  (C9_read_only_monotone gRootEx).2.2 rfl [NestStep.plain, NestStep.readOnly]

/-- C10: the root context owned by `OwnedEnvironment::new` binds no parent
asset map, and `OwnedEnvironment::commit` on any context with no parent
bound returns the context's asset map — never
`FailedToConstructAssetTable`; that error branch is unreachable. -/
theorem C10_no_failed_asset_table {σ : Type} (database : σ) (g : GlobalContext σ)
    (dc : ContractContext) (cs : CallStack) :
    (OwnedEnvironment.new database).context.parent_map = none ∧
    (g.parent_map = none →
      OwnedEnvironment.commit ⟨g, dc, cs⟩ = .ok g.asset_map ∧
      OwnedEnvironment.commit ⟨g, dc, cs⟩ ≠
        .error (.Interpreter .FailedToConstructAssetTable)) := by
  refine ⟨rfl, ?_⟩
  intro h
  have hc : g.commit = (.ok (some g.asset_map), none, .committed) := by
    unfold GlobalContext.commit
    rw [h]
  have hok : OwnedEnvironment.commit ⟨g, dc, cs⟩ = .ok g.asset_map := by
    unfold OwnedEnvironment.commit
    simp only
    rw [hc]
  exact ⟨hok, by rw [hok]; intro hcon; cases hcon⟩

/-- Witness for C10 at a concrete owned root context. -/
theorem C10_no_failed_asset_table_witness :
    OwnedEnvironment.commit ⟨gRootEx, ContractContext.new ":transient:", CallStack.new⟩ =
      .ok oneEx :=
  ((C10_no_failed_asset_table (0 : Nat) gRootEx (ContractContext.new ":transient:")
      CallStack.new).2 rfl).1
